import Mathlib

/-!
Verification of the incremental ETL pipeline in `etl-jobs/orders_etl.py`
(class `OrdersETL`), as a shallow embedding in Lean.

Modelling conventions:
* timestamps are natural numbers; a nullable SQL timestamp is `Option Nat`
  (SQL `NULL > t` is not true, which `sqlGt` reflects);
* Python numbers coming from the database are `PyNum`: `psycopg2` delivers
  `NUMERIC` columns as `decimal.Decimal` (constructor `dec`), and Python's
  `float(...)` coerces them to a float (constructor `flt`) with the same
  numeric value (floating-point rounding plays no role in any claim here);
* an order item is one Python dict; the same object flows from the extracted
  row into the transformed document, so source rows and documents share the
  `Item` type;
* the external world (database contents, which calls raise, the wall clock)
  is passed explicitly as data, and a Python exception escaping a function is
  an `Except.error`.
-/

namespace OrdersEtl

/-- Python numeric values as seen by the pipeline: a `decimal.Decimal` from
the database driver, or a `float` produced by `float(...)`. -/
inductive PyNum where
  | dec (v : ℚ)
  | flt (v : ℚ)
deriving DecidableEq, Repr

/-- Python's `float(x)` on a `Decimal` or `float`: same value, float type. -/
def pyFloat : PyNum → PyNum
  | PyNum.dec v => PyNum.flt v
  | PyNum.flt v => PyNum.flt v

/-- One order line item, as built by the `json_build_object` aggregation in
`extract_orders` (and mutated in place by `transform_orders`). -/
structure Item where
  product_id : Nat
  product_name : String
  category : String
  brand : String
  quantity : Nat
  unit_price : PyNum
  total_price : PyNum
deriving DecidableEq, Repr

/-- One row returned by the extraction query: order columns joined with the
user and the `json_agg` item list (`GROUP BY` yields one row per order). -/
structure Order where
  order_id : Nat
  user_id : Nat
  user_name : String
  user_email : String
  order_date : Option Nat
  status : String
  total_amount : PyNum
  shipping_address : String
  payment_method : String
  created_at : Option Nat
  updated_at : Option Nat
  items : List Item
deriving DecidableEq, Repr

/-- The document built by `transform_orders` for one order row. The
`isoformat` rendering of a timestamp is modelled by the timestamp value
itself (the rendering is injective and nothing downstream parses it). -/
structure Doc where
  order_id : Nat
  user_id : Nat
  user_name : String
  user_email : String
  order_date : Option Nat
  status : String
  total_amount : PyNum
  shipping_address : String
  payment_method : String
  created_at : Option Nat
  updated_at : Option Nat
  items : List Item
  items_count : Nat
  total_quantity : Nat
  categories : List String
  brands : List String
  etl_timestamp : Nat
  etl_source : String
deriving DecidableEq, Repr

/-- The in-place numeric coercion `transform_orders` applies to every item
dict: `item['unit_price'] = float(item['unit_price'])` and likewise for
`total_price` (orders_etl.py lines 175-177). -/
def coerce_item (it : Item) : Item :=
  { it with
    unit_price := pyFloat it.unit_price
    total_price := pyFloat it.total_price }

/-- The document `transform_orders` builds for one order (orders_etl.py lines
151-177), with `now` the value of `datetime.now()`. The document's `items`
is the same list object as the source row's, read after the numeric coercion
loop has run through it, hence `o.items.map coerce_item`. The derived fields
are computed from the item list; `list(set(...))` is a duplicate-free list of
the names, modelled by `List.dedup`. -/
def transform_order (now : Nat) (o : Order) : Doc :=
  { order_id := o.order_id
    user_id := o.user_id
    user_name := o.user_name
    user_email := o.user_email
    order_date := o.order_date
    status := o.status
    total_amount := pyFloat o.total_amount
    shipping_address := o.shipping_address
    payment_method := o.payment_method
    created_at := o.created_at
    updated_at := o.updated_at
    items := o.items.map coerce_item
    items_count := o.items.length
    total_quantity := (o.items.map Item.quantity).sum
    categories := (o.items.map Item.category).dedup
    brands := (o.items.map Item.brand).dedup
    etl_timestamp := now
    etl_source := "postgresql" }

/-- The net effect of `transform_orders` on one source row: the row's `items`
list is mutated element-wise by the coercion loop (written through the alias
`order_doc['items']`); every other field of the row dict is untouched. -/
def mutate_order (o : Order) : Order :=
  { o with items := o.items.map coerce_item }

/-- Function `transform_orders` (orders_etl.py lines 145-182). First component: the
returned document list. Second component: the state of the caller's source
rows after the call, reflecting the in-place item mutation. -/
def transform_orders (now : Nat) (orders : List Order) : List Doc × List Order :=
  (orders.map (transform_order now), orders.map mutate_order)

/-- SQL comparison `col > t` on a nullable column: `NULL > t` is not true. -/
def sqlGt : Option Nat → Nat → Bool
  | some v, t => decide (t < v)
  | none, _ => false

/-- The extraction `WHERE` clause (orders_etl.py lines 88-90): absent on the
first run, `created_at > since OR updated_at > since` afterwards. -/
def matches_since (since : Option Nat) (o : Order) : Bool :=
  match since with
  | none => true
  | some t => sqlGt o.created_at t || sqlGt o.updated_at t

/-- The `ORDER BY o.order_date DESC` comparison: `a` sorts no later than `b`.
PostgreSQL puts `NULL` first in descending order. -/
def date_desc_le (a b : Order) : Bool :=
  match a.order_date, b.order_date with
  | none, _ => true
  | some _, none => false
  | some x, some y => decide (y ≤ x)

/-- Function `extract_orders` (orders_etl.py lines 78-135) as a function of the
joined table contents: filter by the incremental predicate, sort by
`order_date DESC`, `LIMIT 10000`. `db` holds the join result, one row per
order carrying its aggregated item list. -/
def extract_orders (db : List Order) (last_etl_time : Option Nat) : List Order :=
  (((db.filter (matches_since last_etl_time)).mergeSort date_desc_le).take 10000)

section KeyedLists

variable {α : Type} {β : Type}

/-- Last binding for a key in a list of keyed records: the value a reader
obtains for `k` when later occurrences shadow earlier ones. -/
def lookupLast (key : α → Nat) : List α → Nat → Option α
  | [], _ => none
  | r :: rs, k =>
    match lookupLast key rs k with
    | some x => some x
    | none => if key r = k then some r else none

/-- pandas `drop_duplicates(subset=[key], keep='last')` (orders_etl.py line
307): keep a row exactly when no later row carries the same key, preserving
the order of the kept rows. -/
def dropDupKeepLast (key : α → Nat) : List α → List α
  | [] => []
  | r :: rs =>
    if rs.any (fun x => key x = key r) then dropDupKeepLast key rs
    else r :: dropDupKeepLast key rs

/-- Python dict assignment `d[key(r)] = r` on an insertion-ordered dict
modelled as a key-unique list: replace in place if the key is present,
append otherwise (orders_etl.py lines 331-333). -/
def dictInsert (key : α → Nat) (d : List α) (r : α) : List α :=
  if d.any (fun x => key x = key r) then
    d.map (fun x => if key x = key r then r else x)
  else d ++ [r]

theorem lookupLast_eq_none {key : α → Nat} {l : List α} {k : Nat} :
    lookupLast key l k = none ↔ ∀ x ∈ l, key x ≠ k := by
  induction l with
  | nil => simp [lookupLast]
  | cons r rs ih =>
    simp only [lookupLast]
    cases h : lookupLast key rs k with
    | some x =>
      simp only [List.mem_cons]
      constructor
      · intro hc; cases hc
      · intro hall
        exfalso
        have := ih.mpr (fun y hy => hall y (Or.inr hy))
        rw [this] at h; cases h
    | none =>
      have hrs := ih.mp h
      constructor
      · intro hc x hx
        rcases List.mem_cons.mp hx with rfl | hx
        · intro hk; rw [if_pos hk] at hc; cases hc
        · exact hrs x hx
      · intro hall
        rw [if_neg (hall r (List.mem_cons_self r rs))]

theorem lookupLast_mem {key : α → Nat} {l : List α} {k : Nat} {x : α}
    (h : lookupLast key l k = some x) : x ∈ l ∧ key x = k := by
  induction l with
  | nil => cases h
  | cons r rs ih =>
    simp only [lookupLast] at h
    cases hrs : lookupLast key rs k with
    | some y =>
      rw [hrs] at h
      injection h with h
      subst h
      exact ⟨List.mem_cons_of_mem _ (ih hrs).1, (ih hrs).2⟩
    | none =>
      rw [hrs] at h
      by_cases hk : key r = k
      · rw [if_pos hk] at h
        injection h with h
        subst h
        exact ⟨List.mem_cons_self _ _, hk⟩
      · rw [if_neg hk] at h; cases h

theorem lookupLast_isSome_iff {key : α → Nat} {l : List α} {k : Nat} :
    (lookupLast key l k).isSome = true ↔ k ∈ l.map key := by
  constructor
  · intro h
    cases hl : lookupLast key l k with
    | none => rw [hl] at h; cases h
    | some x =>
      rcases lookupLast_mem hl with ⟨hm, hk⟩
      exact hk ▸ List.mem_map_of_mem key hm
  · intro h
    cases hl : lookupLast key l k with
    | none =>
      rcases List.mem_map.mp h with ⟨x, hx, hk⟩
      exact absurd hk (lookupLast_eq_none.mp hl x hx)
    | some x => rfl

theorem lookupLast_append {key : α → Nat} (l₁ l₂ : List α) (k : Nat) :
    lookupLast key (l₁ ++ l₂) k =
      match lookupLast key l₂ k with
      | some x => some x
      | none => lookupLast key l₁ k := by
  induction l₁ with
  | nil =>
    simp only [List.nil_append]
    cases h : lookupLast key l₂ k <;> simp [lookupLast, h]
  | cons r rs ih =>
    simp only [List.cons_append, lookupLast]
    simp only [List.append_eq] at *
    rw [ih]
    cases h : lookupLast key l₂ k <;>
      cases h2 : lookupLast key rs k <;> simp [lookupLast, h, h2]

theorem lookupLast_map {key : α → Nat} {key2 : β → Nat} (f : α → β)
    (hf : ∀ x, key2 (f x) = key x) (l : List α) (k : Nat) :
    lookupLast key2 (l.map f) k = (lookupLast key l k).map f := by
  induction l with
  | nil => simp [lookupLast]
  | cons r rs ih =>
    simp only [List.map_cons, lookupLast, ih]
    cases h : lookupLast key rs k with
    | some x => simp
    | none => simp [hf r]

theorem mem_of_mem_dropDupKeepLast {key : α → Nat} {l : List α} {x : α}
    (h : x ∈ dropDupKeepLast key l) : x ∈ l := by
  induction l with
  | nil => cases h
  | cons r rs ih =>
    simp only [dropDupKeepLast] at h
    by_cases hd : rs.any (fun y => key y = key r)
    · rw [if_pos hd] at h
      exact List.mem_cons_of_mem _ (ih h)
    · rw [if_neg hd] at h
      rcases List.mem_cons.mp h with rfl | h
      · exact List.mem_cons_self _ _
      · exact List.mem_cons_of_mem _ (ih h)

theorem nodup_keys_dropDupKeepLast (key : α → Nat) (l : List α) :
    ((dropDupKeepLast key l).map key).Nodup := by
  induction l with
  | nil => simp [dropDupKeepLast]
  | cons r rs ih =>
    simp only [dropDupKeepLast]
    by_cases hd : rs.any (fun y => key y = key r)
    · rw [if_pos hd]; exact ih
    · rw [if_neg hd]
      simp only [List.map_cons, List.nodup_cons]
      refine ⟨?_, ih⟩
      intro hmem
      rcases List.mem_map.mp hmem with ⟨y, hy, hk⟩
      have hy' := mem_of_mem_dropDupKeepLast hy
      have hany : rs.any (fun x => key x = key r) = true := by
        rw [List.any_eq_true]
        exact ⟨y, hy', decide_eq_true hk⟩
      exact hd hany

theorem lookupLast_dropDupKeepLast (key : α → Nat) (l : List α) (k : Nat) :
    lookupLast key (dropDupKeepLast key l) k = lookupLast key l k := by
  induction l with
  | nil => rfl
  | cons r rs ih =>
    simp only [dropDupKeepLast]
    by_cases hd : rs.any (fun y => key y = key r)
    · rw [if_pos hd, ih]
      simp only [lookupLast]
      cases h : lookupLast key rs k with
      | some x => rfl
      | none =>
        by_cases hk : key r = k
        · exfalso
          rcases List.any_eq_true.mp hd with ⟨y, hy, hky⟩
          have : key y = key r := of_decide_eq_true hky
          exact lookupLast_eq_none.mp h y hy (hk ▸ this)
        · rw [if_neg hk]
    · rw [if_neg hd]
      simp only [lookupLast, ih]

theorem lookupLast_of_nodup_mem {key : α → Nat} {l : List α} {x : α}
    (hnd : (l.map key).Nodup) (hx : x ∈ l) :
    lookupLast key l (key x) = some x := by
  induction l with
  | nil => cases hx
  | cons r rs ih =>
    simp only [List.map_cons, List.nodup_cons] at hnd
    simp only [lookupLast]
    rcases List.mem_cons.mp hx with rfl | hx
    · have : lookupLast key rs (key x) = none := by
        rw [lookupLast_eq_none]
        intro y hy hk
        exact hnd.1 (hk ▸ List.mem_map_of_mem key hy)
      rw [this, if_pos rfl]
    · rw [ih hnd.2 hx]

theorem lookupLast_dictInsert (key : α → Nat) (d : List α) (r : α) (k : Nat) :
    lookupLast key (dictInsert key d r) k =
      if k = key r then some r else lookupLast key d k := by
  unfold dictInsert
  by_cases hd : d.any (fun x => key x = key r)
  · rw [if_pos hd]
    have hkey : ∀ x, key (if key x = key r then r else x) = key x := by
      intro x
      by_cases hx : key x = key r
      · rw [if_pos hx, hx]
      · rw [if_neg hx]
    rw [lookupLast_map _ hkey]
    by_cases hk : k = key r
    · subst hk
      rcases List.any_eq_true.mp hd with ⟨y, hy, hky⟩
      have hyk : key y = key r := of_decide_eq_true hky
      cases hl : lookupLast key d (key r) with
      | none => exact absurd hyk (lookupLast_eq_none.mp hl y hy)
      | some x =>
        have hxk := (lookupLast_mem hl).2
        simp [hl, if_pos hxk]
    · rw [if_neg hk]
      cases hl : lookupLast key d k with
      | none => simp [hl]
      | some x =>
        have hxk := (lookupLast_mem hl).2
        have hxr : ¬ key x = key r := fun hc => hk (by rw [← hxk, hc])
        simp [hl, if_neg hxr]
  · rw [if_neg hd]
    rw [lookupLast_append]
    by_cases hk : k = key r
    · subst hk
      simp [lookupLast]
    · have h2 : ¬ key r = k := fun h => hk h.symm
      simp [lookupLast, if_neg h2, if_neg hk]

theorem nodup_keys_dictInsert (key : α → Nat) (d : List α) (r : α)
    (hnd : (d.map key).Nodup) : ((dictInsert key d r).map key).Nodup := by
  unfold dictInsert
  by_cases hd : d.any (fun x => key x = key r)
  · rw [if_pos hd]
    have : (d.map (fun x => if key x = key r then r else x)).map key = d.map key := by
      rw [List.map_map]
      apply List.map_congr_left
      intro x _
      by_cases hx : key x = key r
      · simp [hx]
      · simp [hx]
    rw [this]
    exact hnd
  · rw [if_neg hd]
    rw [List.map_append, List.nodup_append]
    refine ⟨hnd, List.nodup_singleton _, ?_⟩
    intro a ha hb
    simp only [List.map_cons, List.map_nil, List.mem_singleton] at hb
    subst hb
    rcases List.mem_map.mp ha with ⟨y, hy, hk⟩
    exact hd (List.any_eq_true.mpr ⟨y, hy, decide_eq_true hk⟩)

theorem lookupLast_foldl_dictInsert (key : α → Nat) (l : List α) (d : List α) (k : Nat) :
    lookupLast key (List.foldl (dictInsert key) d l) k =
      match lookupLast key l k with
      | some x => some x
      | none => lookupLast key d k := by
  induction l generalizing d with
  | nil => simp [lookupLast]
  | cons r rs ih =>
    simp only [List.foldl_cons, lookupLast]
    rw [ih]
    cases h : lookupLast key rs k with
    | some x => simp
    | none =>
      simp only [lookupLast_dictInsert]
      by_cases hk : k = key r
      · subst hk
        simp
      · have h2 : ¬ key r = k := fun h => hk h.symm
        simp [if_neg hk, if_neg h2]

theorem nodup_keys_foldl_dictInsert (key : α → Nat) (l : List α) (d : List α)
    (hnd : (d.map key).Nodup) :
    ((List.foldl (dictInsert key) d l).map key).Nodup := by
  induction l generalizing d with
  | nil => exact hnd
  | cons r rs ih => exact ih _ (nodup_keys_dictInsert key d r hnd)

end KeyedLists

theorem date_desc_le_trans (a b c : Order) (hab : date_desc_le a b = true)
    (hbc : date_desc_le b c = true) : date_desc_le a c = true := by
  unfold date_desc_le at *
  cases ha : a.order_date <;> cases hb : b.order_date <;> cases hc : c.order_date <;>
    simp_all <;> omega

theorem date_desc_le_total (a b : Order) :
    (date_desc_le a b || date_desc_le b a) = true := by
  unfold date_desc_le
  cases a.order_date <;> cases b.order_date <;> simp <;> omega

/-- JSON rendering of a Python float for the parquet cell strings. The exact
text never matters to any property below; only that `to_pq_row` is a
function of the document. -/
def jsonOfNum : PyNum → String
  | PyNum.dec v => toString v
  | PyNum.flt v => toString v

/-- JSON rendering of a nullable isoformat timestamp. -/
def jsonOfOptNat : Option Nat → String
  | none => "null"
  | some t => toString t

/-- Rendering of `json.dumps` on a list of strings (the `categories` and
`brands` columns). Python escaping of special characters is not modelled; no
property below depends on the cell text. -/
def jsonOfStrings (l : List String) : String :=
  "[" ++ String.intercalate ", " (l.map (fun s => "\x22" ++ s ++ "\x22")) ++ "]"

/-- Rendering of `json.dumps` on one item dict. -/
def jsonOfItem (it : Item) : String :=
  "\x7b" ++ String.intercalate ", "
    [ "\x22product_id\x22: " ++ toString it.product_id
    , "\x22product_name\x22: \x22" ++ it.product_name ++ "\x22"
    , "\x22category\x22: \x22" ++ it.category ++ "\x22"
    , "\x22brand\x22: \x22" ++ it.brand ++ "\x22"
    , "\x22quantity\x22: " ++ toString it.quantity
    , "\x22unit_price\x22: " ++ jsonOfNum it.unit_price
    , "\x22total_price\x22: " ++ jsonOfNum it.total_price ] ++ "\x7d"

/-- Rendering of `json.dumps` on the item list (the `items` column). -/
def jsonOfItems (l : List Item) : String :=
  "[" ++ String.intercalate ", " (l.map jsonOfItem) ++ "]"

/-- One row of the hourly parquet DataFrame: the document's scalar columns,
with the `items`, `categories` and `brands` columns turned into JSON strings
by the `.apply(json.dumps)` calls (orders_etl.py lines 296-298). -/
structure PqRow where
  order_id : Nat
  user_id : Nat
  user_name : String
  user_email : String
  order_date : Option Nat
  status : String
  total_amount : PyNum
  shipping_address : String
  payment_method : String
  created_at : Option Nat
  updated_at : Option Nat
  items : String
  items_count : Nat
  total_quantity : Nat
  categories : String
  brands : String
  etl_timestamp : Nat
  etl_source : String
deriving DecidableEq, Repr

/-- The parquet encoding of one document. -/
def to_pq_row (d : Doc) : PqRow :=
  { order_id := d.order_id
    user_id := d.user_id
    user_name := d.user_name
    user_email := d.user_email
    order_date := d.order_date
    status := d.status
    total_amount := d.total_amount
    shipping_address := d.shipping_address
    payment_method := d.payment_method
    created_at := d.created_at
    updated_at := d.updated_at
    items := jsonOfItems d.items
    items_count := d.items_count
    total_quantity := d.total_quantity
    categories := jsonOfStrings d.categories
    brands := jsonOfStrings d.brands
    etl_timestamp := d.etl_timestamp
    etl_source := d.etl_source }

/-- The hourly file pair `orders_<YYYYMMDD_HH>.parquet` and
`orders_<YYYYMMDD_HH>.json`: `none` when the file does not exist yet. -/
structure HourFile where
  pq : Option (List PqRow)
  js : Option (List Doc)
deriving DecidableEq, Repr

/-- State of the partition directory before the first cycle of the hour. -/
def emptyHourFile : HourFile := { pq := none, js := none }

/-- The body of `load_to_file_storage` (orders_etl.py lines 270-352) for one
hour-file pair. `pqReadOk` and `jsRead0k` tell whether the reads of the
existing files succeed; on a read failure the code logs a warning and falls
back to just the new batch. An empty batch returns early, touching nothing.
The parquet side merges via pandas `concat` followed by
`drop_duplicates(subset=['order_id'], keep='last')`; the JSON side merges
through an insertion-ordered dict keyed by `order_id`. -/
def load_to_file_storage (pqReadOk jsRead0k : Bool) (f : HourFile)
    (orders : List Doc) : HourFile :=
  if orders.isEmpty then f
  else
    let new_rows := orders.map to_pq_row
    let pq2 :=
      match f.pq with
      | some existing_df =>
          if pqReadOk then dropDupKeepLast PqRow.order_id (existing_df ++ new_rows)
          else new_rows
      | none => new_rows
    let js2 :=
      match f.js with
      | some existing_orders =>
          if jsRead0k then
            List.foldl (dictInsert Doc.order_id)
              (List.foldl (dictInsert Doc.order_id) [] existing_orders) orders
          else orders
      | none => orders
    { pq := some pq2, js := some js2 }

/-- A sequence of `load_to_file_storage` calls against the same hour pair,
each read succeeding, starting from a directory without the files. -/
def run_loads (batches : List (List Doc)) : HourFile :=
  batches.foldl (fun f b => load_to_file_storage true true f b) emptyHourFile

theorem to_pq_row_key (d : Doc) : (to_pq_row d).order_id = d.order_id := rfl

/-- Invariant tying the parquet hour file to the documents emitted so far:
either no file exists and nothing was emitted, or the file's keys are
duplicate-free and its per-key content is the parquet encoding of the most
recently emitted document for that key. -/
def pqInv : Option (List PqRow) → List Doc → Prop
  | none, emitted => emitted = []
  | some F, emitted =>
      (F.map PqRow.order_id).Nodup ∧
      ∀ k, lookupLast PqRow.order_id F k =
             (lookupLast Doc.order_id emitted k).map to_pq_row

theorem pqInv_step (f : HourFile) (emitted : List Doc) (b : List Doc)
    (hInv : pqInv f.pq emitted) (hnd : (b.map Doc.order_id).Nodup) :
    pqInv (load_to_file_storage true true f b).pq (emitted ++ b) := by
  by_cases hb : b.isEmpty
  · have hbe : b = [] := List.isEmpty_iff.mp hb
    subst hbe
    simpa [load_to_file_storage] using hInv
  · cases hf : f.pq with
    | none =>
      have he : emitted = [] := by rw [hf] at hInv; exact hInv
      subst he
      simp only [load_to_file_storage, if_neg hb, hf, pqInv, List.nil_append]
      constructor
      · rw [List.map_map]
        exact hnd
      · intro k
        exact lookupLast_map to_pq_row to_pq_row_key b k
    | some F =>
      rw [hf] at hInv
      simp only [load_to_file_storage, if_neg hb, hf, pqInv]
      constructor
      · exact nodup_keys_dropDupKeepLast _ _
      · intro k
        rw [if_pos trivial]
        rw [lookupLast_dropDupKeepLast, lookupLast_append,
          lookupLast_map to_pq_row to_pq_row_key, lookupLast_append]
        cases h : lookupLast Doc.order_id b k with
        | some d => simp
        | none => simp [hInv.2 k]

theorem pqInv_run_loads_aux (batches : List (List Doc)) (f : HourFile)
    (emitted : List Doc) (hInv : pqInv f.pq emitted)
    (hnd : ∀ b ∈ batches, (b.map Doc.order_id).Nodup) :
    pqInv ((batches.foldl (fun g b => load_to_file_storage true true g b) f).pq)
      (emitted ++ batches.flatten) := by
  induction batches generalizing f emitted with
  | nil => simpa using hInv
  | cons b bs ih =>
    simp only [List.foldl_cons, List.flatten_cons, ← List.append_assoc]
    exact ih _ _ (pqInv_step f emitted b hInv (hnd b (List.mem_cons_self b bs)))
      (fun x hx => hnd x (List.mem_cons_of_mem b hx))

/-- In-process pipeline state: the high-water mark `last_etl_time` (line 31,
updated at line 376) and the hour-file pair the cycle writes to. -/
structure EtlState where
  last_etl_time : Option Nat
  file : HourFile
deriving DecidableEq, Repr

/-- The external world one `run_etl` cycle observes: the joined table
contents, which steps raise, and the wall clock. `extractRaises` is a
query/connection error escaping `extract_orders`; `esRaises` an exception
escaping `load_to_elasticsearch` (its internal per-batch handlers swallow
bulk errors, so this is the unexpected case); `fileRaises` an exception
escaping `load_to_file_storage`, which re-raises on write failure (line
352). -/
structure CycleEnv where
  db : List Order
  extractRaises : Bool
  esRaises : Bool
  fileRaises : Bool
  now : Nat
deriving DecidableEq, Repr

/-- Which sink loaders a cycle actually invoked. -/
inductive SinkCall where
  | es
  | file
deriving DecidableEq, Repr

/-- The `try` body of `run_etl` (orders_etl.py lines 358-377): extract; on an
empty batch return early; transform; load to the search index, then to file
storage; only then update `last_etl_time` to `datetime.now()`. The second
component records which sink loaders were invoked. On failure the
in-progress writes of the raising loader are not modelled; no property below
reads the file of a failed cycle. -/
def run_etl_aux (st : EtlState) (env : CycleEnv) :
    Except Unit EtlState × List SinkCall :=
  if env.extractRaises then (Except.error (), [])
  else
    let orders := extract_orders env.db st.last_etl_time
    if orders.isEmpty then (Except.ok st, [])
    else
      let docs := (transform_orders env.now orders).1
      if env.esRaises then (Except.error (), [SinkCall.es])
      else if env.fileRaises then (Except.error (), [SinkCall.es, SinkCall.file])
      else
        (Except.ok { last_etl_time := some env.now
                     file := load_to_file_storage true true st.file docs },
         [SinkCall.es, SinkCall.file])

/-- The whole `run_etl` method: its `except Exception` clause (lines 379-384)
catches every error from the body, logs it, and falls off the end of the
method, leaving `last_etl_time` untouched. -/
def run_etl (st : EtlState) (env : CycleEnv) : EtlState :=
  match (run_etl_aux st env).1 with
  | Except.ok st2 => st2
  | Except.error _ => st

/-- The sleep the `__main__` loop performs after a cycle (lines 390-402): 30
seconds when the loop body ran to completion, 10 seconds in its
`except Exception` branch. -/
def loop_sleep_after (r : Except Unit EtlState) : Nat :=
  match r with
  | Except.ok _ => 30
  | Except.error _ => 10

/-- The call `etl.run_etl()` as the scheduler loop sees it: `run_etl` has its
own blanket `except Exception`, so the call returns normally for every cycle
error modelled here and no exception reaches the loop. -/
def run_etl_call (st : EtlState) (env : CycleEnv) : Except Unit EtlState :=
  Except.ok (run_etl st env)

/-- The sleep actually chosen by the scheduler loop after driving one cycle. -/
def scheduler_sleep (st : EtlState) (env : CycleEnv) : Nat :=
  loop_sleep_after (run_etl_call st env)

/-- Outcome of the i-th fresh `psycopg2.connect` attempt: the call raises, or
it yields a handle whose `SELECT 1` liveness ping then succeeds or fails. -/
inductive BuildOutcome where
  | raise
  | built (pingOk : Bool)
deriving DecidableEq, Repr

/-- A database handle: which build produced it and whether its ping passes. -/
structure Handle where
  id : Nat
  pingOk : Bool
deriving DecidableEq, Repr

/-- Function `get_connection` (orders_etl.py lines 49-76). `conn` is `self.pg_conn`
(`none` when absent or closed); `build i` tells how the i-th fresh connect
goes; `i` is the next build index; `fuel` bounds the recursion depth, `none`
meaning the fuel ran out (the Python runs on, recursing again). A live
handle is returned together with the next build index; a `connect` failure
propagates to the caller (`raise` at line 76). When the ping fails, the code
sets `self.pg_conn = None` and calls itself (line 71). -/
def get_connection (build : Nat → BuildOutcome) :
    Option Handle → Nat → Nat → Option (Except Unit (Handle × Nat))
  | _, _, 0 => none
  | conn, i, fuel + 1 =>
    match conn with
    | some h =>
        if h.pingOk then some (Except.ok (h, i))
        else get_connection build none i fuel
    | none =>
        match build i with
        | BuildOutcome.raise => some (Except.error ())
        | BuildOutcome.built p =>
            if p then some (Except.ok ({ id := i, pingOk := p }, i + 1))
            else get_connection build none (i + 1) fuel

/-! Concrete sample data for witnesses and counterexamples. -/

def item1 : Item :=
  { product_id := 1, product_name := "p1", category := "c1", brand := "b1"
    quantity := 2, unit_price := PyNum.dec 5, total_price := PyNum.dec 10 }

def item2 : Item :=
  { product_id := 2, product_name := "p2", category := "c1", brand := "b2"
    quantity := 3, unit_price := PyNum.dec 1, total_price := PyNum.dec 3 }

def order1 : Order :=
  { order_id := 42, user_id := 7, user_name := "u", user_email := "e"
    order_date := some 100, status := "pending", total_amount := PyNum.dec 13
    shipping_address := "addr", payment_method := "card"
    created_at := some 90, updated_at := none, items := [item1, item2] }

def order1b : Order := { order1 with status := "shipped", updated_at := some 120 }

def doc1 : Doc := transform_order 0 order1

def doc1b : Doc := transform_order 1 order1b

theorem coerce_item_quantity (it : Item) : (coerce_item it).quantity = it.quantity := rfl

theorem coerce_item_category (it : Item) : (coerce_item it).category = it.category := rfl

theorem coerce_item_brand (it : Item) : (coerce_item it).brand = it.brand := rfl

/-- C4: for every document D produced by `transform_orders`, `items_count`
equals the length of D's item list, `total_quantity` the sum of the item
quantities, and `categories` and `brands` are duplicate-free lists carrying
exactly the distinct item category and brand names. -/
theorem C4_derived_fields (now : Nat) (orders : List Order) (D : Doc)
    (hD : D ∈ (transform_orders now orders).1) :
    D.items_count = D.items.length ∧
    D.total_quantity = (D.items.map Item.quantity).sum ∧
    D.categories.Nodup ∧
    D.categories.toFinset = (D.items.map Item.category).toFinset ∧
    D.brands.Nodup ∧
    D.brands.toFinset = (D.items.map Item.brand).toFinset := by
  simp only [transform_orders] at hD
  rcases List.mem_map.mp hD with ⟨o, _, rfl⟩
  refine ⟨?_, ?_, ?_, ?_, ?_, ?_⟩
  · simp [transform_order]
  · simp [transform_order, List.map_map, Function.comp_def, coerce_item_quantity]
  · exact List.nodup_dedup _
  · ext a
    simp [transform_order, List.map_map, Function.comp_def, coerce_item_category,
      List.mem_dedup]
  · exact List.nodup_dedup _
  · ext a
    simp [transform_order, List.map_map, Function.comp_def, coerce_item_brand,
      List.mem_dedup]

theorem C4_witness :
    doc1.items_count = doc1.items.length ∧
    doc1.total_quantity = (doc1.items.map Item.quantity).sum ∧
    doc1.categories.Nodup ∧
    doc1.categories.toFinset = (doc1.items.map Item.category).toFinset ∧
    doc1.brands.Nodup ∧
    doc1.brands.toFinset = (doc1.items.map Item.brand).toFinset :=
  C4_derived_fields 0 [order1] doc1 (by simp [transform_orders, doc1])

/-- C2: with a high-water mark set, the extraction result is sound for the
predicate created-after-or-updated-after the mark, complete for it whenever
the matching rows fit under the 10000-row cap, and excludes every row the
predicate rejects. -/
theorem C2_incremental_window (db : List Order) (t : Nat) (o : Order) :
    (o ∈ extract_orders db (some t) → matches_since (some t) o = true) ∧
    (o ∈ db → matches_since (some t) o = true →
      (db.filter (matches_since (some t))).length ≤ 10000 →
      o ∈ extract_orders db (some t)) ∧
    (matches_since (some t) o = false → o ∉ extract_orders db (some t)) := by
  have sound : o ∈ extract_orders db (some t) → matches_since (some t) o = true := by
    intro h
    unfold extract_orders at h
    have h2 := List.mem_mergeSort.mp (List.mem_of_mem_take h)
    exact (List.mem_filter.mp h2).2
  refine ⟨sound, ?_, ?_⟩
  · intro hdb hm hlen
    unfold extract_orders
    have hlen2 : ((db.filter (matches_since (some t))).mergeSort date_desc_le).length
        ≤ 10000 := by
      rw [List.length_mergeSort]
      exact hlen
    rw [List.take_of_length_le hlen2]
    exact List.mem_mergeSort.mpr (List.mem_filter.mpr ⟨hdb, hm⟩)
  · intro hm hmem
    rw [sound hmem] at hm
    cases hm

theorem C2_witness :
    matches_since (some 50) order1 = true ∧
    order1 ∈ extract_orders [order1] (some 50) ∧
    matches_since (some 200) order1 = false ∧
    order1 ∉ extract_orders [order1] (some 200) :=
  ⟨by decide,
   (C2_incremental_window [order1] 50 order1).2.1 (by decide) (by decide) (by decide),
   by decide,
   (C2_incremental_window [order1] 200 order1).2.2 (by decide)⟩

/-- C5: on a cold start (no high-water mark) the extraction returns
`min 10000 |db|` rows, sorted by descending order date, and any row left
out dates no later than every returned row: the cap keeps the most recent
orders, never the entire table unconditionally. -/
theorem C5_cold_start (db : List Order) :
    (extract_orders db none).length = min 10000 db.length ∧
    List.Pairwise (fun a b => date_desc_le a b = true) (extract_orders db none) ∧
    (∀ o ∈ db, o ∉ extract_orders db none →
      ∀ r ∈ extract_orders db none, date_desc_le r o = true) := by
  have hfilter : db.filter (matches_since none) = db :=
    List.filter_eq_self.mpr (fun _ _ => rfl)
  have hsorted := @List.sorted_mergeSort Order date_desc_le
    date_desc_le_trans date_desc_le_total (db.filter (matches_since none))
  refine ⟨?_, ?_, ?_⟩
  · unfold extract_orders
    rw [List.length_take, List.length_mergeSort, hfilter]
  · exact List.Pairwise.sublist (List.take_sublist _ _) hsorted
  · intro o ho hno r hr
    set S := (db.filter (matches_since none)).mergeSort date_desc_le with hS
    have hoS : o ∈ S := List.mem_mergeSort.mpr (by rw [hfilter]; exact ho)
    have hsplit : S.take 10000 ++ S.drop 10000 = S := List.take_append_drop _ _
    have hpw : List.Pairwise (fun a b => date_desc_le a b = true)
        (S.take 10000 ++ S.drop 10000) := by rw [hsplit]; exact hsorted
    rcases List.pairwise_append.mp hpw with ⟨_, _, hcross⟩
    have hodrop : o ∈ S.drop 10000 := by
      rcases List.mem_append.mp (hsplit ▸ hoS) with hx | hx
      · exact absurd hx hno
      · exact hx
    exact hcross r hr o hodrop

theorem C5_witness :
    (extract_orders [order1, order1b] none).length = min 10000 2 ∧
    List.Pairwise (fun a b => date_desc_le a b = true)
      (extract_orders [order1, order1b] none) ∧
    (∀ o ∈ [order1, order1b], o ∉ extract_orders [order1, order1b] none →
      ∀ r ∈ extract_orders [order1, order1b] none, date_desc_le r o = true) :=
  C5_cold_start [order1, order1b]

/-- Erase the one intentionally time-dependent field of a document. -/
def erase_ts (d : Doc) : Doc := { d with etl_timestamp := 0 }

/-- C6 counterexample: the claim says `transform_orders` leaves each source
row, nested items included, unchanged. It does not: the numeric coercion
loop writes `float(...)` values through `order_doc['items']`, which aliases
the source row's item list, so after the call `order1`'s items carry `flt`
prices where `dec` prices went in. -/
theorem C6_counterexample :
    (transform_orders 0 [order1]).2 ≠ [order1] ∧
    (transform_orders 0 [order1]).2 = [mutate_order order1] ∧
    mutate_order order1 ≠ order1 := by
  refine ⟨?_, rfl, ?_⟩ <;> decide

/-- C6 amended: `transform_orders` mutates each source row exactly by
coercing its items' `unit_price` and `total_price` to float in place (all
other row fields untouched); each returned document's item list is that
same mutated list; and apart from `etl_timestamp` the output is a function
of the input rows alone. -/
theorem C6_amended (t1 t2 : Nat) (orders : List Order) :
    (transform_orders t1 orders).2 =
      orders.map (fun o => { o with items := o.items.map coerce_item }) ∧
    (transform_orders t1 orders).1.map Doc.items =
      (transform_orders t1 orders).2.map Order.items ∧
    (transform_orders t1 orders).1.map erase_ts =
      (transform_orders t2 orders).1.map erase_ts := by
  refine ⟨rfl, ?_, ?_⟩
  · simp only [transform_orders, List.map_map]
    apply List.map_congr_left
    intro o _
    rfl
  · simp only [transform_orders, List.map_map]
    apply List.map_congr_left
    intro o _
    rfl

/-- C1: starting from no hourly file, after any sequence of
`load_to_file_storage` calls whose batches are each duplicate-free by
`order_id` (as extraction batches are, one row per order), the parquet hour
file holds exactly one row per emitted `order_id`, and that row is the
parquet encoding of the newest (last-merged) document for that id. -/
theorem C1_hourly_convergence (batches : List (List Doc))
    (hnd : ∀ b ∈ batches, (b.map Doc.order_id).Nodup)
    (F : List PqRow) (hF : (run_loads batches).pq = some F) :
    (F.map PqRow.order_id).Nodup ∧
    (∀ r ∈ F, ∃ d, lookupLast Doc.order_id batches.flatten r.order_id = some d ∧
      r = to_pq_row d) ∧
    (∀ d ∈ batches.flatten, ∃ r ∈ F, r.order_id = d.order_id) := by
  have hInv := pqInv_run_loads_aux batches emptyHourFile []
    (by simp [pqInv, emptyHourFile]) hnd
  rw [List.nil_append] at hInv
  unfold run_loads at hF
  rw [hF] at hInv
  rcases hInv with ⟨hndF, hlook⟩
  refine ⟨hndF, ?_, ?_⟩
  · intro r hr
    have h1 : lookupLast PqRow.order_id F r.order_id = some r :=
      lookupLast_of_nodup_mem hndF hr
    rw [hlook r.order_id] at h1
    rcases Option.map_eq_some'.mp h1 with ⟨d, hd, hdr⟩
    exact ⟨d, hd, hdr.symm⟩
  · intro d hd
    have h1 : d.order_id ∈ batches.flatten.map Doc.order_id :=
      List.mem_map_of_mem Doc.order_id hd
    have h2 := lookupLast_isSome_iff.mpr h1
    cases hx : lookupLast Doc.order_id batches.flatten d.order_id with
    | none => rw [hx] at h2; cases h2
    | some x =>
      have h3 : lookupLast PqRow.order_id F d.order_id = some (to_pq_row x) := by
        rw [hlook d.order_id, hx]
        rfl
      rcases lookupLast_mem h3 with ⟨hmem, hkey⟩
      exact ⟨to_pq_row x, hmem, hkey⟩

theorem C1_witness :
    (([to_pq_row doc1b]).map PqRow.order_id).Nodup ∧
    (∀ r ∈ [to_pq_row doc1b], ∃ d,
      lookupLast Doc.order_id ([[doc1], [doc1b]]).flatten r.order_id = some d ∧
      r = to_pq_row d) ∧
    (∀ d ∈ ([[doc1], [doc1b]]).flatten, ∃ r ∈ [to_pq_row doc1b],
      r.order_id = d.order_id) :=
  C1_hourly_convergence [[doc1], [doc1b]] (by decide) [to_pq_row doc1b]
    (by simp [run_loads, load_to_file_storage, emptyHourFile, dropDupKeepLast,
      doc1, doc1b, transform_order, order1, order1b, to_pq_row])

theorem keys_mem_iff_of_corr {P : List PqRow} {J : List Doc}
    (hcorr : ∀ k, lookupLast PqRow.order_id P k =
      (lookupLast Doc.order_id J k).map to_pq_row) (k : Nat) :
    k ∈ P.map PqRow.order_id ↔ k ∈ J.map Doc.order_id := by
  rw [← lookupLast_isSome_iff, ← lookupLast_isSome_iff, hcorr k]
  cases lookupLast Doc.order_id J k <;> simp

/-- C9: one `load_to_file_storage` call, merging an existing parquet file
and an existing JSON file that encode the same keyed row set, leaves the two
files encoding the same deduplicated row set: the same `order_id` keys, and
for every key the parquet row is the encoding of the JSON document, each the
newest occurrence of that order. -/
theorem C9_dual_format (P : List PqRow) (J : List Doc) (b : List Doc)
    (hP : (P.map PqRow.order_id).Nodup) (hJ : (J.map Doc.order_id).Nodup)
    (hPJ : ∀ k, lookupLast PqRow.order_id P k =
      (lookupLast Doc.order_id J k).map to_pq_row)
    (P2 : List PqRow) (J2 : List Doc)
    (h : load_to_file_storage true true { pq := some P, js := some J } b =
      { pq := some P2, js := some J2 }) :
    (P2.map PqRow.order_id).Nodup ∧ (J2.map Doc.order_id).Nodup ∧
    (∀ k, k ∈ P2.map PqRow.order_id ↔ k ∈ J2.map Doc.order_id) ∧
    (∀ k, lookupLast PqRow.order_id P2 k =
      (lookupLast Doc.order_id J2 k).map to_pq_row) := by
  by_cases hb : b.isEmpty
  · simp only [load_to_file_storage, if_pos hb] at h
    injection h with h1 h2
    injection h1 with h1
    injection h2 with h2
    subst h1
    subst h2
    exact ⟨hP, hJ, keys_mem_iff_of_corr hPJ, hPJ⟩
  · simp only [load_to_file_storage, if_neg hb, if_pos trivial] at h
    injection h with h1 h2
    injection h1 with h1
    injection h2 with h2
    subst h1
    subst h2
    have hcorr : ∀ k,
        lookupLast PqRow.order_id
          (dropDupKeepLast PqRow.order_id (P ++ b.map to_pq_row)) k =
        (lookupLast Doc.order_id
          (List.foldl (dictInsert Doc.order_id)
            (List.foldl (dictInsert Doc.order_id) [] J) b) k).map to_pq_row := by
      intro k
      rw [lookupLast_dropDupKeepLast, lookupLast_append,
        lookupLast_map to_pq_row to_pq_row_key,
        lookupLast_foldl_dictInsert, lookupLast_foldl_dictInsert]
      cases hx : lookupLast Doc.order_id b k with
      | some d => simp
      | none =>
        simp only
        cases hy : lookupLast Doc.order_id J k with
        | some d => simp [hPJ k, hy, lookupLast]
        | none => simp [hPJ k, hy, lookupLast]
    refine ⟨nodup_keys_dropDupKeepLast _ _, ?_, keys_mem_iff_of_corr hcorr, hcorr⟩
    exact nodup_keys_foldl_dictInsert _ _ _
      (nodup_keys_foldl_dictInsert _ _ _ (by simp))

theorem C9_witness :
    (([to_pq_row doc1b]).map PqRow.order_id).Nodup ∧
    (([doc1b]).map Doc.order_id).Nodup ∧
    (∀ k, k ∈ ([to_pq_row doc1b]).map PqRow.order_id ↔
      k ∈ ([doc1b]).map Doc.order_id) ∧
    (∀ k, lookupLast PqRow.order_id [to_pq_row doc1b] k =
      (lookupLast Doc.order_id [doc1b] k).map to_pq_row) :=
  C9_dual_format [to_pq_row doc1] [doc1] [doc1b] (by decide) (by decide)
    (by
      intro k
      by_cases hk : k = 42
      · subst hk; rfl
      · simp [lookupLast, doc1, transform_order, order1, to_pq_row, hk])
    [to_pq_row doc1b] [doc1b]
    (by simp [load_to_file_storage, dropDupKeepLast, dictInsert, doc1, doc1b,
      transform_order, order1, order1b, to_pq_row])

/-! Sample scheduler states and environments. -/

def st0 : EtlState := { last_etl_time := none, file := emptyHourFile }

def envFail : CycleEnv :=
  { db := [], extractRaises := true, esRaises := false, fileRaises := false
    now := 5 }

def envEmpty : CycleEnv :=
  { db := [], extractRaises := false, esRaises := false, fileRaises := false
    now := 5 }

/-- C3: a cycle that fails anywhere after extraction and before both sink
loads complete leaves `last_etl_time` unchanged, so the next extraction
window is the same; and the mark moves only on a cycle in which both the
search-index load and the file-storage load were invoked and returned. -/
theorem C3_no_advance_on_failure (st : EtlState) (env : CycleEnv) :
    ((run_etl_aux st env).1 = Except.error () →
      (run_etl st env).last_etl_time = st.last_etl_time ∧
      extract_orders env.db (run_etl st env).last_etl_time =
        extract_orders env.db st.last_etl_time) ∧
    ((run_etl st env).last_etl_time ≠ st.last_etl_time →
      env.esRaises = false ∧ env.fileRaises = false ∧
      (run_etl_aux st env).2 = [SinkCall.es, SinkCall.file]) := by
  by_cases h1 : env.extractRaises <;>
    by_cases h2 : (extract_orders env.db st.last_etl_time).isEmpty <;>
      by_cases h3 : env.esRaises <;>
        by_cases h4 : env.fileRaises <;>
          simp [run_etl, run_etl_aux, h1, h2, h3, h4]

theorem C3_witness :
    (run_etl st0 envFail).last_etl_time = st0.last_etl_time ∧
    extract_orders envFail.db (run_etl st0 envFail).last_etl_time =
      extract_orders envFail.db st0.last_etl_time :=
  (C3_no_advance_on_failure st0 envFail).1 rfl

/-- C10: when extraction returns no rows, `run_etl` returns early with the
state untouched: no sink loader is invoked, `last_etl_time` keeps its value,
and the cycle is a normal (non-error) completion. -/
theorem C10_empty_cycle (st : EtlState) (env : CycleEnv)
    (hok : env.extractRaises = false)
    (hempty : extract_orders env.db st.last_etl_time = []) :
    run_etl st env = st ∧ (run_etl_aux st env).1 = Except.ok st ∧
    (run_etl_aux st env).2 = [] := by
  refine ⟨?_, ?_, ?_⟩ <;> simp [run_etl, run_etl_aux, hok, hempty]

theorem C10_witness :
    run_etl st0 envEmpty = st0 ∧ (run_etl_aux st0 envEmpty).1 = Except.ok st0 ∧
    (run_etl_aux st0 envEmpty).2 = [] :=
  C10_empty_cycle st0 envEmpty (by decide) (by simp [extract_orders, envEmpty, st0])

/-- C7 counterexample: the claim says a failed cycle is followed by the
10-second backoff sleep. In the code, `run_etl` itself catches the cycle
error and returns normally, so the scheduler loop reaches its normal
`time.sleep(30)`: here a cycle whose extraction raises is followed by the
30-second sleep, not the 10-second one. -/
theorem C7_counterexample :
    (run_etl_aux st0 envFail).1 = Except.error () ∧
    scheduler_sleep st0 envFail = 30 ∧ ¬ scheduler_sleep st0 envFail = 10 :=
  ⟨rfl, rfl, by decide⟩

/-- C7 amended: a failed cycle's error is swallowed by `run_etl`'s own
handler and never reaches the scheduler loop, which therefore sleeps the
30-second interval after every cycle, failed or not; the 10-second backoff
runs only for an exception that escapes `run_etl` itself. -/
theorem C7_amended (st : EtlState) (env : CycleEnv)
    (_hfail : (run_etl_aux st env).1 = Except.error ()) :
    scheduler_sleep st env = 30 ∧
    loop_sleep_after (Except.error ()) = 10 :=
  ⟨rfl, rfl⟩

theorem C7_witness :
    scheduler_sleep st0 envFail = 30 ∧
    loop_sleep_after (Except.error ()) = 10 :=
  C7_amended st0 envFail rfl

/-- Build behaviour under which the first two fresh connections fail the
liveness ping and the third passes it. -/
def buildBad : Nat → BuildOutcome := fun i => BuildOutcome.built (decide (2 ≤ i))

/-- An existing handle whose `SELECT 1` ping fails. -/
def deadHandle : Handle := { id := 100, pingOk := false }

/-- C8 counterexample: the claim says `get_connection` recurses exactly once
after a failed ping and never retries beyond that one reconnect attempt.
Starting from a dead existing handle, with fresh connections whose pings
fail twice before succeeding, the code recurses three times and builds
three fresh connections (the returned next build index is 3), instead of
failing after the single allowed reconnect. -/
theorem C8_counterexample :
    get_connection buildBad (some deadHandle) 0 10 =
      some (Except.ok ({ id := 2, pingOk := true }, 3)) ∧ ¬ (3 : Nat) ≤ 1 :=
  ⟨rfl, by decide⟩

/-- C8 amended: `get_connection` keeps discarding the handle and recursing
until some fresh connection passes the ping (it returns the first such
handle, every earlier build in the window having failed the ping), and it
does not terminate at any recursion depth while every fresh connection
keeps failing the ping; a `connect` failure still surfaces to the caller as
an exception. -/
theorem C8_amended (build : Nat → BuildOutcome) (i fuel : Nat) (h : Handle)
    (j : Nat) :
    (get_connection build none i fuel = some (Except.ok (h, j)) →
      h.pingOk = true ∧ build h.id = BuildOutcome.built true ∧ j = h.id + 1 ∧
      i ≤ h.id ∧ ∀ k, i ≤ k → k < h.id → build k = BuildOutcome.built false) ∧
    ((∀ k, build k = BuildOutcome.built false) →
      get_connection build none i fuel = none) := by
  induction fuel generalizing i with
  | zero => exact ⟨fun hc => Option.noConfusion hc, fun _ => rfl⟩
  | succ fuel ih =>
    constructor
    · intro hc
      cases hb : build i with
      | raise =>
        simp [get_connection, hb] at hc
      | built p =>
        cases p with
        | true =>
          simp only [get_connection, hb, if_true] at hc
          injection hc with hc
          injection hc with hc
          injection hc with hc1 hc2
          subst hc2
          rw [← hc1]
          exact ⟨rfl, hb, rfl, Nat.le_refl i,
            fun k hk1 hk2 => absurd (show k < i from hk2) (Nat.not_lt.mpr hk1)⟩
        | false =>
          simp only [get_connection, hb] at hc
          rw [if_neg (by simp)] at hc
          rcases (ih (i + 1)).1 hc with ⟨hping, hbid, hj, hle, hwin⟩
          refine ⟨hping, hbid, hj, by omega, ?_⟩
          intro k hk1 hk2
          rcases Nat.eq_or_lt_of_le hk1 with rfl | hlt
          · exact hb
          · exact hwin k hlt hk2
    · intro hall
      simp only [get_connection, hall i]
      rw [if_neg (by simp)]
      exact (ih (i + 1)).2 hall

theorem C8_witness :
    ({ id := 2, pingOk := true } : Handle).pingOk = true ∧
    buildBad ({ id := 2, pingOk := true } : Handle).id = BuildOutcome.built true ∧
    (3 : Nat) = ({ id := 2, pingOk := true } : Handle).id + 1 ∧
    (0 : Nat) ≤ ({ id := 2, pingOk := true } : Handle).id :=
  ((C8_amended buildBad 0 10 { id := 2, pingOk := true } 3).1 rfl).imp
    id (fun hx => ⟨hx.1, hx.2.1, hx.2.2.1⟩)

end OrdersEtl
